import Mathlib

/-!
Verification of the Solana transactions-per-second counter (`src/main.rs`).

The file gives a shallow embedding of the program's core: the transaction
classifier `count_user_transactions`, the throughput calculator
`calculate_tps`, and the backward block-traversal loop of
`calculate_for_range`.  Rust machine integers are modeled as `ℕ`/`ℤ` with
explicit bounds (`u64Max`, `i64Min`, `i64Max`); Rust panics
(`unwrap`/`expect` and slice-index panics) are modeled as explicit
`Except.error` values of kind `PanicKind`; the external RPC block source is
modeled as a pure function from slot numbers to blocks.
-/

/-- A Solana account address (a 32-byte public key), modeled abstractly as a
natural number; the program only ever compares addresses for equality. -/
abbrev Pubkey := ℕ

/-- The well-known vote program address (`solana_sdk::vote::program::id()`),
modeled as a fixed distinguished `Pubkey`; only equality with it matters. -/
def vote_program_id : Pubkey := 0

/-- `CompiledInstruction`: `program_id_index` is a `u8` in the source, widened
to `usize` (`usize::from`) before use, so we model it as `ℕ`; the account-index
list and the opaque instruction data are never read by the classifier. -/
structure Instruction where
  program_id_index : ℕ
  accounts : List ℕ
  data : List ℕ
deriving DecidableEq

/-- A decoded `VersionedTransaction`, restricted to the parts the classifier
reads: `message.static_account_keys()` and `message.instructions()`. -/
structure DecodedTransaction where
  account_keys : List Pubkey
  instructions : List Instruction
deriving DecidableEq

/-- An `EncodedTransactionWithStatusMeta`, modeled by the result of
`transaction.decode()`, which returns `Option<VersionedTransaction>`. -/
structure EncodedTransaction where
  decoded : Option DecodedTransaction
deriving DecidableEq

/-- An `EncodedConfirmedBlock`, restricted to the fields the program reads.
`block_time : Option<i64>` and `block_height : Option<u64>` are optional in
the RPC schema and are `unwrap`ped by the program. -/
structure EncodedConfirmedBlock where
  parent_slot : ℕ
  block_time : Option ℤ
  block_height : Option ℕ
  transactions : List EncodedTransaction
deriving DecidableEq

/-- The ways the program can abort: each `unwrap`/`expect` panic and the
slice-index panic of `account_keys[...]` becomes an explicit error value.
`outOfFuel` is the artifact of modeling the unbounded `loop` with fuel. -/
inductive PanicKind where
  | decodeFail
  | indexOOB
  | subUnderflow
  | addOverflow
  | thresholdUnderflow
  | timeNone
  | timestampOutOfRange
  | heightNone
  | outOfFuel
deriving DecidableEq

/-- Largest value of a Rust `u64`. -/
def u64Max : ℕ := 2 ^ 64 - 1

/-- Smallest value of a Rust `i64`. -/
def i64Min : ℤ := -(2 ^ 63)

/-- Largest value of a Rust `i64`. -/
def i64Max : ℤ := 2 ^ 63 - 1

/-- Rust `i64::saturating_sub`: the true difference clamped to the `i64`
bounds.  Note it saturates at `i64::MIN`/`i64::MAX`, not at zero. -/
def i64SaturatingSub (a b : ℤ) : ℤ := max i64Min (min i64Max (a - b))

/-- Rust `i64::checked_sub`: `none` when the difference leaves the `i64`
range. -/
def i64CheckedSub (a b : ℤ) : Option ℤ :=
  if i64Min ≤ a - b ∧ a - b ≤ i64Max then some (a - b) else none

/-- The smallest Unix timestamp (in seconds) accepted by chrono's
`NaiveDateTime::from_timestamp`: midnight of `-262143-01-01`, the earliest
day chrono's calendar represents.  For smaller seconds `from_timestamp`
panics with "invalid or out-of-range datetime". -/
def chronoMinTimestamp : ℤ := -8334601228800

/-- The largest Unix timestamp accepted by chrono's
`NaiveDateTime::from_timestamp`: the last second of `262142-12-31`, the
latest day chrono's calendar represents.  For larger seconds
`from_timestamp` panics. -/
def chronoMaxTimestamp : ℤ := 8210266876799

/-- The value of an `f64` as observed by this program: a finite value
(modeled as an exact rational), NaN, or one of the two infinities.  The
properties at stake concern only the sign, zeroness and finiteness of the
result, all of which IEEE-754 rounding preserves at the magnitudes this
program produces. -/
inductive FVal where
  | fin (q : ℚ)
  | nan
  | inf
  | neginf
deriving DecidableEq

/-- `f64::is_nan`. -/
def FVal.isNan : FVal → Bool
  | .nan => true
  | _ => false

/-- `f64::is_infinite`: true for both infinities. -/
def FVal.isInfinite : FVal → Bool
  | .inf => true
  | .neginf => true
  | _ => false

/-- IEEE-754 division of two finite `f64` operands: `0/0` is NaN, `a/0` for
`a ≠ 0` is a signed infinity, and otherwise the quotient is finite.  For the
operands this program produces (a nonnegative count at most `2^64` divided by
a nonzero integer of magnitude at most `2^63`) the finite quotient can never
overflow to an infinity, so this classification is exact. -/
def f64Div (a b : ℚ) : FVal :=
  if b = 0 then (if a = 0 then .nan else if 0 < a then .inf else .neginf)
  else .fin (a / b)

/-- `calculate_tps` from `src/main.rs`: `total_seconds_diff` is
`newest_timestamp.saturating_sub(oldest_timestamp)`; both operands are cast
to `f64` and divided; a NaN or infinite quotient is replaced by `0.0`. -/
def calculate_tps (oldest_timestamp newest_timestamp : ℤ)
    (transaction_count : ℕ) : FVal :=
  let total_seconds_diff := i64SaturatingSub newest_timestamp oldest_timestamp
  let r := f64Div (transaction_count : ℚ) (total_seconds_diff : ℚ)
  if r.isNan || r.isInfinite then .fin 0 else r

lemma calculate_tps_eq (o n : ℤ) (c : ℕ) :
    calculate_tps o n c =
      FVal.fin (if i64SaturatingSub n o = 0 then 0
                else (c : ℚ) / ((i64SaturatingSub n o : ℤ) : ℚ)) := by
  unfold calculate_tps f64Div
  by_cases h0 : i64SaturatingSub n o = 0
  · rcases Nat.eq_zero_or_pos c with hc | hc
    · simp [h0, hc, FVal.isNan]
    · have : (0 : ℚ) < (c : ℚ) := by exact_mod_cast hc
      simp [h0, this.ne', this, FVal.isNan, FVal.isInfinite]
  · have hq : ((i64SaturatingSub n o : ℤ) : ℚ) ≠ 0 := by
      exact_mod_cast h0
    simp [hq, h0, FVal.isNan, FVal.isInfinite]

/-- C4: the throughput calculator never returns a non-finite value: every
result is a finite rational; `calculate_tps ts ts N = 0` for any `N` (zero
elapsed never yields NaN or Inf), and `calculate_tps t1 t2 0 = 0` for
`t1 < t2` (zero transactions yields zero, not NaN). -/
theorem tps_always_finite :
    (∀ o n c, ∃ q, calculate_tps o n c = FVal.fin q) ∧
    (∀ ts c, calculate_tps ts ts c = FVal.fin 0) ∧
    (∀ t1 t2, t1 < t2 → calculate_tps t1 t2 0 = FVal.fin 0) := by
  refine ⟨fun o n c => ⟨_, calculate_tps_eq o n c⟩, fun ts c => ?_, fun t1 t2 _ => ?_⟩
  · have h0 : i64SaturatingSub ts ts = 0 := by
      simp [i64SaturatingSub, i64Min, i64Max]
    simp [calculate_tps_eq, h0]
  · rw [calculate_tps_eq]
    simp

/-- C4 witness: concrete instances of the three conjuncts. -/
theorem tps_always_finite_witness :
    (∃ q, calculate_tps 3 10 7 = FVal.fin q) ∧
    calculate_tps 5 5 9 = FVal.fin 0 ∧
    calculate_tps 3 10 0 = FVal.fin 0 :=
  ⟨tps_always_finite.1 3 10 7, tps_always_finite.2.1 5 9,
    tps_always_finite.2.2 3 10 (by norm_num)⟩

/-- C2 counterexample: the claim says the elapsed time saturates at zero and
the rate is normalized to `0.0` whenever `oldest_ts ≥ newest_ts`, but
`i64::saturating_sub` saturates only at the `i64` bounds: with
`oldest = 10`, `newest = 5`, `count = 5` the code computes an elapsed time of
`-5` and returns the negative rate `-1`, not `0.0`. -/
theorem tps_negative_counterexample :
    calculate_tps 10 5 5 = FVal.fin (-1) ∧ ((-1 : ℚ) < 0) := by
  constructor
  · rw [calculate_tps_eq]
    norm_num [i64SaturatingSub, i64Min, i64Max]
  · norm_num

/-- C2 (amended): elapsed time is `newest - oldest` computed with
`i64::saturating_sub`, which saturates at the `i64` bounds and can be
negative; for `newest ≤ oldest` the returned rate is never positive, and it
equals `0` exactly when the timestamps coincide or the count is zero
(otherwise it is a strictly negative rate, not `0.0`). -/
theorem tps_reversed_timestamps (oldest newest : ℤ) (c : ℕ)
    (hle : newest ≤ oldest) :
    ∃ q, calculate_tps oldest newest c = FVal.fin q ∧ q ≤ 0 ∧
      (q = 0 ↔ (newest = oldest ∨ c = 0)) := by
  have hdiff : newest - oldest ≤ 0 := by omega
  have hminlt : i64Min < 0 := by norm_num [i64Min]
  have hmaxpos : (0 : ℤ) < i64Max := by norm_num [i64Max]
  have hmin : min i64Max (newest - oldest) = newest - oldest :=
    min_eq_right (le_trans hdiff hmaxpos.le)
  have hd_np : i64SaturatingSub newest oldest ≤ 0 := by
    rw [i64SaturatingSub, hmin]
    exact max_le hminlt.le hdiff
  have hd_zero : i64SaturatingSub newest oldest = 0 ↔ newest = oldest := by
    rw [i64SaturatingSub, hmin]
    constructor
    · intro h
      rcases max_cases i64Min (newest - oldest) with ⟨he, _⟩ | ⟨he, _⟩ <;> omega
    · intro h
      simp [h, hminlt.le]
  rw [calculate_tps_eq]
  by_cases h0 : i64SaturatingSub newest oldest = 0
  · exact ⟨0, by simp [h0], le_refl 0, by simp [hd_zero.mp h0]⟩
  · rcases Nat.eq_zero_or_pos c with hc | hc
    · refine ⟨0, by simp [h0, hc], le_refl 0, by simp [hc]⟩
    · have hdneg : (i64SaturatingSub newest oldest : ℤ) < 0 :=
        lt_of_le_of_ne hd_np h0
      have hdq : ((i64SaturatingSub newest oldest : ℤ) : ℚ) < 0 := by
        exact_mod_cast hdneg
      have hcq : (0 : ℚ) < (c : ℚ) := by exact_mod_cast hc
      have hq_neg : (c : ℚ) / ((i64SaturatingSub newest oldest : ℤ) : ℚ) < 0 :=
        div_neg_of_pos_of_neg hcq hdq
      refine ⟨_, by simp [h0], hq_neg.le, ?_⟩
      constructor
      · intro h
        exact absurd h hq_neg.ne
      · rintro (h | h)
        · exact absurd (hd_zero.mpr h) h0
        · omega

/-- C2 witness for the amended statement, at equal timestamps. -/
theorem tps_reversed_timestamps_witness :
    ∃ q, calculate_tps 7 7 3 = FVal.fin q ∧ q ≤ 0 ∧
      (q = 0 ↔ ((7 : ℤ) = 7 ∨ (3 : ℕ) = 0)) :=
  tps_reversed_timestamps 7 7 3 (le_refl 7)

/-- The inner loop of `count_user_transactions` over one transaction's
instructions: resolve each instruction's program id by indexing
`account_keys[usize::from(instruction.program_id_index)]` (an out-of-bounds
index is a slice-index panic, `indexOOB`) and count how many resolve to the
vote program. -/
def countVoteInstructions (account_keys : List Pubkey) :
    List Instruction → Except PanicKind ℕ
  | [] => .ok 0
  | instruction :: rest =>
    match account_keys[instruction.program_id_index]? with
    | none => .error .indexOOB
    | some program_id =>
      match countVoteInstructions account_keys rest with
      | .error e => .error e
      | .ok n => .ok ((if program_id = vote_program_id then 1 else 0) + n)

/-- One iteration of the classifier's per-transaction loop: decode the
transaction (`transaction.decode().unwrap()`, panic `decodeFail` when
`decode()` returns `None`), count its vote instructions, and report whether
it is a user transaction, i.e. whether
`num_vote_instructions ≠ instructions.len()`. -/
def classifyTx (tx : EncodedTransaction) : Except PanicKind Bool :=
  match tx.decoded with
  | none => .error .decodeFail
  | some transaction =>
    match countVoteInstructions transaction.account_keys
        transaction.instructions with
    | .error e => .error e
    | .ok num_vote_instructions =>
      .ok (decide (num_vote_instructions ≠ transaction.instructions.length))

/-- The classifier's fold over the block's transactions, accumulating
`user_transactions_count`. -/
def countUserAux : List EncodedTransaction → ℕ → Except PanicKind ℕ
  | [], acc => .ok acc
  | tx :: rest, acc =>
    match classifyTx tx with
    | .error e => .error e
    | .ok true => countUserAux rest (acc + 1)
    | .ok false => countUserAux rest acc

/-- `count_user_transactions` from `src/main.rs`: fold the classifier over the
block's transactions, then compute
`block.transactions.len().checked_sub(user_transactions_count).expect("Underflow")`
(the vote-transaction count, used only for a log line, but its `expect` is a
real panic point, `subUnderflow`), and return the user count. -/
def count_user_transactions (block : EncodedConfirmedBlock) :
    Except PanicKind ℕ :=
  match countUserAux block.transactions 0 with
  | .error e => .error e
  | .ok user_transactions_count =>
    if block.transactions.length < user_transactions_count then
      .error .subUnderflow
    else .ok user_transactions_count

/-- Spec-side: instruction `i` of decoded transaction `d` resolves, via its
program-id index into the static account-key list, to the vote program. -/
def resolvesToVote (d : DecodedTransaction) (i : Instruction) : Bool :=
  d.account_keys[i.program_id_index]? == some vote_program_id

/-- Spec-side (from the claim's words): a user transaction is one that
decodes and has at least one instruction that does not resolve to the vote
program. -/
def isUserTransaction_spec (tx : EncodedTransaction) : Bool :=
  match tx.decoded with
  | none => false
  | some d => !(d.instructions.all fun i => resolvesToVote d i)

/-- A transaction the classifier can process without a panic: it decodes and
every instruction's program-id index is in bounds of the account-key list. -/
def txWellFormed (tx : EncodedTransaction) : Bool :=
  match tx.decoded with
  | none => false
  | some d =>
    d.instructions.all fun i => (d.account_keys[i.program_id_index]?).isSome

/-- Every transaction of the block decodes (`transaction.decode()` succeeds). -/
def allTxDecode (block : EncodedConfirmedBlock) : Bool :=
  block.transactions.all fun tx => tx.decoded.isSome


lemma countP_eq_length_decide (l : List Instruction) (p : Instruction → Bool) :
    decide (l.countP p = l.length) = l.all p := by
  by_cases h : ∀ a ∈ l, p a = true
  · simp [List.countP_eq_length.mpr h, List.all_eq_true.mpr h]
  · have h1 : l.countP p ≠ l.length := fun hc => h (List.countP_eq_length.mp hc)
    have h2 : l.all p = false := by
      cases hb : l.all p
      · rfl
      · exact absurd (List.all_eq_true.mp hb) h
    simp [h1, h2]

lemma countVote_eq (keys : List Pubkey) (l : List Instruction) :
    countVoteInstructions keys l =
      if ∀ i ∈ l, (keys[i.program_id_index]?).isSome = true then
        .ok (l.countP fun i => keys[i.program_id_index]? == some vote_program_id)
      else .error .indexOOB := by
  induction l with
  | nil => simp [countVoteInstructions]
  | cons i rest ih =>
    simp only [countVoteInstructions, ih]
    cases hk : keys[i.program_id_index]? with
    | none =>
      have hc : ¬ ∀ x ∈ i :: rest, (keys[x.program_id_index]?).isSome = true := by
        intro h
        have := h i (List.mem_cons_self i rest)
        rw [hk] at this
        simp at this
      rw [if_neg hc]
    | some pid =>
      by_cases hall : ∀ x ∈ rest, (keys[x.program_id_index]?).isSome = true
      · have hcons : ∀ x ∈ i :: rest, (keys[x.program_id_index]?).isSome = true := by
          intro x hx
          rcases List.mem_cons.mp hx with hx | hx
          · rw [hx, hk]; rfl
          · exact hall x hx
        rw [if_pos hall, if_pos hcons]
        simp [List.countP_cons, hk, beq_iff_eq, Nat.add_comm]
      · have hc : ¬ ∀ x ∈ i :: rest, (keys[x.program_id_index]?).isSome = true :=
          fun h => hall fun x hx => h x (List.mem_cons_of_mem i hx)
        rw [if_neg hall, if_neg hc]

lemma classifyTx_eq (tx : EncodedTransaction) :
    classifyTx tx =
      if txWellFormed tx then .ok (isUserTransaction_spec tx)
      else .error (if tx.decoded.isSome then PanicKind.indexOOB
                   else PanicKind.decodeFail) := by
  cases htx : tx.decoded with
  | none => simp [classifyTx, txWellFormed, htx]
  | some d =>
    by_cases hall : ∀ i ∈ d.instructions, (d.account_keys[i.program_id_index]?).isSome = true
    · have hwf : txWellFormed tx = true := by
        simp only [txWellFormed, htx]
        exact List.all_eq_true.mpr hall
      simp only [classifyTx, htx, countVote_eq, if_pos hall, hwf, if_true]
      congr 1
      simp only [ne_eq, decide_not, countP_eq_length_decide, isUserTransaction_spec, htx,
        resolvesToVote]
    · have hwf : txWellFormed tx = false := by
        simp only [txWellFormed, htx]
        cases hb : d.instructions.all fun i => (d.account_keys[i.program_id_index]?).isSome
        · rfl
        · exact absurd (List.all_eq_true.mp hb) hall
      simp only [classifyTx, htx, countVote_eq, if_neg hall, hwf, Bool.false_eq_true,
        if_false, Option.isSome_some, if_true]

lemma countUserAux_ok_iff (l : List EncodedTransaction) (acc n : ℕ) :
    countUserAux l acc = .ok n ↔
      ((∀ tx ∈ l, txWellFormed tx = true) ∧
        n = acc + l.countP isUserTransaction_spec) := by
  induction l generalizing acc with
  | nil =>
    simp only [countUserAux, List.countP_nil, Nat.add_zero]
    constructor
    · intro h
      refine ⟨by intro tx hx; simp at hx, (Except.ok.inj h).symm⟩
    · rintro ⟨-, hn⟩
      rw [hn]
  | cons tx rest ih =>
    simp only [countUserAux, classifyTx_eq]
    by_cases hwf : txWellFormed tx = true
    · rw [if_pos hwf]
      cases hu : isUserTransaction_spec tx with
      | true =>
        rw [ih]
        have hc : List.countP isUserTransaction_spec (tx :: rest)
            = List.countP isUserTransaction_spec rest + 1 := by
          simp [List.countP_cons, hu]
        constructor
        · rintro ⟨hrest, hn⟩
          refine ⟨fun x hx => ?_, by omega⟩
          rcases List.mem_cons.mp hx with hx | hx
          · rw [hx]; exact hwf
          · exact hrest x hx
        · rintro ⟨hall, hn⟩
          exact ⟨fun x hx => hall x (List.mem_cons_of_mem tx hx), by omega⟩
      | false =>
        rw [ih]
        have hc : List.countP isUserTransaction_spec (tx :: rest)
            = List.countP isUserTransaction_spec rest := by
          simp [List.countP_cons, hu]
        constructor
        · rintro ⟨hrest, hn⟩
          refine ⟨fun x hx => ?_, by omega⟩
          rcases List.mem_cons.mp hx with hx | hx
          · rw [hx]; exact hwf
          · exact hrest x hx
        · rintro ⟨hall, hn⟩
          exact ⟨fun x hx => hall x (List.mem_cons_of_mem tx hx), by omega⟩
    · rw [if_neg hwf]
      constructor
      · intro h
        exact absurd h (by simp)
      · rintro ⟨hall, -⟩
        exact absurd (hall tx (List.mem_cons_self tx rest)) hwf

lemma countUserAux_error_kind (l : List EncodedTransaction) (acc : ℕ)
    (e : PanicKind) (h : countUserAux l acc = .error e) :
    e = PanicKind.decodeFail ∨ e = PanicKind.indexOOB := by
  induction l generalizing acc with
  | nil => simp [countUserAux] at h
  | cons tx rest ih =>
    rw [countUserAux, classifyTx_eq] at h
    by_cases hwf : txWellFormed tx = true
    · rw [if_pos hwf] at h
      cases hu : isUserTransaction_spec tx <;> rw [hu] at h <;> exact ih _ h
    · rw [if_neg hwf] at h
      simp only [Except.error.injEq] at h
      subst h
      cases tx.decoded <;> simp

lemma count_user_transactions_ok_iff (b : EncodedConfirmedBlock) (n : ℕ) :
    count_user_transactions b = .ok n ↔
      ((∀ tx ∈ b.transactions, txWellFormed tx = true) ∧
        n = b.transactions.countP isUserTransaction_spec) := by
  cases haux : countUserAux b.transactions 0 with
  | error e =>
    have hcu : count_user_transactions b = .error e := by
      unfold count_user_transactions
      rw [haux]
    rw [hcu]
    constructor
    · intro h
      exact absurd h (by simp)
    · rintro ⟨hall, hn⟩
      have hok : countUserAux b.transactions 0
          = .ok (0 + b.transactions.countP isUserTransaction_spec) :=
        (countUserAux_ok_iff _ _ _).mpr ⟨hall, rfl⟩
      rw [haux] at hok
      exact absurd hok (by simp)
  | ok u =>
    have hu := (countUserAux_ok_iff _ _ _).mp haux
    have hle : u ≤ b.transactions.length := by
      rw [hu.2, Nat.zero_add]
      exact List.countP_le_length _
    have hcu : count_user_transactions b = .ok u := by
      unfold count_user_transactions
      rw [haux]
      exact if_neg (by omega)
    rw [hcu]
    have hu2 := hu.2
    constructor
    · intro h
      have hun := Except.ok.inj h
      exact ⟨hu.1, by omega⟩
    · rintro ⟨-, hn⟩
      have : u = n := by omega
      rw [this]

/-- A transaction with a single non-vote instruction: its program-id index
resolves to account key `1`, which is not the vote program. -/
def userTx : EncodedTransaction := ⟨some ⟨[0, 1], [⟨1, [], []⟩]⟩⟩

/-- A transaction whose only instruction resolves to the vote program. -/
def voteTx : EncodedTransaction := ⟨some ⟨[0], [⟨0, [], []⟩]⟩⟩

/-- A transaction with two non-vote instructions and one vote instruction:
it must be counted as one user transaction, not two. -/
def multiUserTx : EncodedTransaction :=
  ⟨some ⟨[0, 1], [⟨1, [], []⟩, ⟨1, [], []⟩, ⟨0, [], []⟩]⟩⟩

/-- A block with one plain user transaction, one vote transaction, and one
user transaction containing several non-vote instructions. -/
def blockW : EncodedConfirmedBlock := ⟨0, some 0, some 0, [userTx, voteTx, multiUserTx]⟩

/-- A block in which every instruction resolves to the vote program. -/
def blockV : EncodedConfirmedBlock := ⟨0, some 0, some 0, [voteTx, voteTx]⟩

/-- C3: when the classifier succeeds, it returns exactly the number of
transactions having at least one instruction that does not resolve (via its
program-id index into the static account-key list) to the vote program —
each such transaction counted exactly once however many non-vote
instructions it contains — and a block in which every instruction resolves
to the vote program yields `0`. -/
theorem classifier_exact_count (b : EncodedConfirmedBlock) (n : ℕ)
    (h : count_user_transactions b = .ok n) :
    n = b.transactions.countP (fun tx => isUserTransaction_spec tx) ∧
    ((∀ tx ∈ b.transactions, ∀ d, tx.decoded = some d →
        (d.instructions.all fun i => resolvesToVote d i) = true) → n = 0) := by
  have hc := (count_user_transactions_ok_iff b n).mp h
  constructor
  · exact hc.2
  · intro hall
    rw [hc.2]
    apply List.countP_eq_zero.mpr
    intro tx hx
    cases htx : tx.decoded with
    | none => simp [isUserTransaction_spec, htx]
    | some d =>
      have hv := hall tx hx d htx
      simp [isUserTransaction_spec, htx, hv]

/-- C3 witness: on `blockW` the classifier returns `2` (the multi-instruction
user transaction counts once), and on the all-vote `blockV` it returns `0`. -/
theorem classifier_exact_count_witness :
    ((2 : ℕ) = blockW.transactions.countP (fun tx => isUserTransaction_spec tx)) ∧
    (0 : ℕ) = 0 :=
  ⟨(classifier_exact_count blockW 2 (by rfl)).1,
   (classifier_exact_count blockV 0 (by rfl)).2 (by decide)⟩

/-- A transaction that decodes, but whose instruction's program-id index `0`
is out of bounds of its empty account-key list. -/
def badIdxTx : EncodedTransaction := ⟨some ⟨[], [⟨0, [], []⟩]⟩⟩

/-- A block whose only transaction decodes but carries an out-of-bounds
program-id index. -/
def badIdxBlock : EncodedConfirmedBlock := ⟨0, some 0, some 0, [badIdxTx]⟩

/-- C9 counterexample: a block in which every transaction's payload decodes
successfully, yet `count_user_transactions` still fails — the classifier also
panics when an instruction's program-id index is out of bounds of the
account-key list (`account_keys[usize::from(program_id_index)]`), so a
decode error is not the only failure condition. -/
theorem classifier_nondecode_failure :
    allTxDecode badIdxBlock = true ∧
    count_user_transactions badIdxBlock = .error PanicKind.indexOOB :=
  ⟨rfl, rfl⟩

/-- C9 (amended): the classifier fails exactly when some transaction's
payload fails to decode or some instruction's program-id index is out of
bounds of the account-key list; on every block whose transactions all decode
and resolve in bounds it returns a count without failing, and any failure is
a hard failure for the whole block (no partial count is returned). -/
theorem classifier_error_characterization (b : EncodedConfirmedBlock) :
    (∃ n, count_user_transactions b = .ok n) ↔
      (∀ tx ∈ b.transactions, txWellFormed tx = true) := by
  constructor
  · rintro ⟨n, h⟩
    exact ((count_user_transactions_ok_iff b n).mp h).1
  · intro hall
    exact ⟨_, (count_user_transactions_ok_iff b _).mpr ⟨hall, rfl⟩⟩

/-- A transaction that decodes to zero instructions. -/
def emptyInstrTx : EncodedTransaction := ⟨some ⟨[5], []⟩⟩

/-- C10: a transaction with zero instructions is classified vote-only (its
vote-instruction count `0` equals its instruction count `0`) and so never
contributes to the user count; the classifier's result never exceeds the
block's transaction count, hence the derived vote count
`len().checked_sub(user_count)` never underflows — `subUnderflow` is
unreachable. -/
theorem zero_instruction_vote_only :
    (∀ tx d, tx.decoded = some d → d.instructions = [] →
      classifyTx tx = .ok false) ∧
    (∀ b, count_user_transactions b ≠ .error PanicKind.subUnderflow) ∧
    (∀ b n, count_user_transactions b = .ok n → n ≤ b.transactions.length) := by
  refine ⟨?_, ?_, ?_⟩
  · intro tx d htx hinstr
    simp [classifyTx, htx, hinstr, countVoteInstructions]
  · intro b h
    cases haux : countUserAux b.transactions 0 with
    | error e =>
      have hcu : count_user_transactions b = .error e := by
        unfold count_user_transactions
        rw [haux]
      rw [hcu] at h
      have he := Except.error.inj h
      subst he
      rcases countUserAux_error_kind _ _ _ haux with hk | hk <;>
        exact PanicKind.noConfusion hk
    | ok u =>
      have hu := (countUserAux_ok_iff _ _ _).mp haux
      have hle : u ≤ b.transactions.length := by
        rw [hu.2, Nat.zero_add]
        exact List.countP_le_length _
      have hcu : count_user_transactions b = .ok u := by
        unfold count_user_transactions
        rw [haux]
        exact if_neg (by omega)
      rw [hcu] at h
      exact absurd h (by simp)
  · intro b n h
    have hc := (count_user_transactions_ok_iff b n).mp h
    rw [hc.2]
    exact List.countP_le_length _

/-- C10 witness: concrete instances of the three conjuncts. -/
theorem zero_instruction_vote_only_witness :
    classifyTx emptyInstrTx = .ok false ∧
    count_user_transactions badIdxBlock ≠ .error PanicKind.subUnderflow ∧
    (2 : ℕ) ≤ blockW.transactions.length :=
  ⟨zero_instruction_vote_only.1 emptyInstrTx ⟨[5], []⟩ rfl rfl,
   zero_instruction_vote_only.2.1 badIdxBlock,
   zero_instruction_vote_only.2.2 blockW 2 (by rfl)⟩

/-- The outcome of one iteration of the traversal loop body: either the loop
breaks or panics (`done`), or it continues with `current = prev` and the
updated running total (`next`). -/
inductive StepOut where
  | done (r : Except PanicKind (ℤ × ℕ))
  | next (b : EncodedConfirmedBlock) (total : ℕ)

/-- One iteration of the loop body in `calculate_for_range`, in source order:
fetch `prev` (a pure lookup in this model), classify `current` (propagating
its panics), then
`NaiveDateTime::from_timestamp(current_block.block_time.unwrap(), 0)` —
which panics both when `block_time` is `None` (`unwrap`) and when the
seconds lie outside chrono's representable range
`[chronoMinTimestamp, chronoMaxTimestamp]` (only the resulting date's
debug-log formatting is value-irrelevant) — then `checked_add` the count
into the running total (`expect("Overflow")`), `prev.block_time.unwrap()`,
and the two break conditions (`prev` at or before the threshold, or `prev`
at height `0`); otherwise continue from `prev`. -/
def calcStep (chain : ℕ → EncodedConfirmedBlock) (timestamp_threshold : ℤ)
    (current : EncodedConfirmedBlock) (total : ℕ) : StepOut :=
  let prev := chain current.parent_slot
  match count_user_transactions current with
  | .error e => .done (.error e)
  | .ok transactions_count =>
    match current.block_time with
    | none => .done (.error .timeNone)
    | some block_ts =>
      if block_ts < chronoMinTimestamp ∨ chronoMaxTimestamp < block_ts then
        .done (.error .timestampOutOfRange)
      else if u64Max < total + transactions_count then .done (.error .addOverflow)
      else
        match prev.block_time with
        | none => .done (.error .timeNone)
        | some prev_block_timestamp =>
          if prev_block_timestamp ≤ timestamp_threshold then
            .done (.ok (prev_block_timestamp, total + transactions_count))
          else
            match prev.block_height with
            | none => .done (.error .heightNone)
            | some ph =>
              if ph = 0 then
                .done (.ok (prev_block_timestamp, total + transactions_count))
              else .next prev (total + transactions_count)

/-- The traversal loop of `calculate_for_range`, with `fuel` bounding the
number of iterations (the Rust `loop` is unbounded; termination is settled
separately).  On a break it returns
`(oldest_timestamp, total_transactions_count)`. -/
def calcLoop (chain : ℕ → EncodedConfirmedBlock) (timestamp_threshold : ℤ) :
    ℕ → EncodedConfirmedBlock → ℕ → Except PanicKind (ℤ × ℕ)
  | 0, _, _ => .error .outOfFuel
  | fuel + 1, current, total =>
    match calcStep chain timestamp_threshold current total with
    | .done r => r
    | .next prev total' => calcLoop chain timestamp_threshold fuel prev total'

/-- `calculate_for_range` from `src/main.rs` (the RPC client is modeled as
the pure `chain` lookup and `get_slot()` as the `tip` argument; the
wall-clock logging is outside the model): fetch the tip block, record
`newest_timestamp = block_time.unwrap()`, compute `timestamp_threshold =
newest_timestamp.checked_sub(threshold_seconds).unwrap()`, run the loop from
the tip with a zero total, and hand the totals to `calculate_tps`.  Returns
`(oldest_timestamp, newest_timestamp, total_transactions_count, tps)`. -/
def calculate_for_range (chain : ℕ → EncodedConfirmedBlock) (tip : ℕ)
    (threshold_seconds : ℤ) (fuel : ℕ) :
    Except PanicKind (ℤ × ℤ × ℕ × FVal) :=
  match (chain tip).block_time with
  | none => .error .timeNone
  | some newest_timestamp =>
    match i64CheckedSub newest_timestamp threshold_seconds with
    | none => .error .thresholdUnderflow
    | some timestamp_threshold =>
      match calcLoop chain timestamp_threshold fuel (chain tip) 0 with
      | .error e => .error e
      | .ok (oldest_timestamp, total_transactions_count) =>
        .ok (oldest_timestamp, newest_timestamp, total_transactions_count,
          calculate_tps oldest_timestamp newest_timestamp
            total_transactions_count)

/-- The `from_timestamp` panic path is live: a block whose timestamp is a
valid `i64` (`10^15`) but lies beyond chrono's representable range aborts
the loop mid-iteration, even though every other success condition holds. -/
lemma calcLoop_chrono_panic_example :
    calcLoop (fun _ => ⟨0, some (10 ^ 15), some 5, []⟩) 0 1
      ⟨0, some (10 ^ 15), some 5, []⟩ 0
      = .error PanicKind.timestampOutOfRange := rfl

/-- The backward path of blocks from block `b`: `blockAt chain b 0 = b` and
`blockAt chain b (i+1)` is the parent (the block at `parent_slot`) of
`blockAt chain b i`. -/
def blockAt (chain : ℕ → EncodedConfirmedBlock) (b : EncodedConfirmedBlock) :
    ℕ → EncodedConfirmedBlock
  | 0 => b
  | i + 1 => chain ((blockAt chain b i).parent_slot)

/-- The user-transaction count of a block on the classifier's success path. -/
def userCount (b : EncodedConfirmedBlock) : ℕ :=
  ((count_user_transactions b).toOption).getD 0

/-- Block A of the spec's end-to-end scenario: slot 2, height 2, timestamp
1000, five user transactions. -/
def blockA3 : EncodedConfirmedBlock :=
  ⟨1, some 1000, some 2, List.replicate 5 userTx⟩

/-- Block B of the scenario: slot 1, height 1, timestamp 940, three user
transactions, parent of A. -/
def blockB3 : EncodedConfirmedBlock :=
  ⟨0, some 940, some 1, List.replicate 3 userTx⟩

/-- Block C of the scenario (genesis): slot 0, height 0, timestamp 880, ten
user transactions, parent of B. -/
def blockC3 : EncodedConfirmedBlock :=
  ⟨0, some 880, some 0, List.replicate 10 userTx⟩

/-- The three-block synthetic chain of the end-to-end scenario, as a slot
lookup. -/
def chain3 (slot : ℕ) : EncodedConfirmedBlock :=
  if slot = 2 then blockA3 else if slot = 1 then blockB3 else blockC3

/-- C5: end-to-end scenario over the three-block chain: with
`threshold_seconds = 60` starting at block A, the traversal counts A's 5
transactions, sees B's timestamp `940 ≤ 1000 - 60 = 940`, stops, excludes
B's transactions, returns `oldest_timestamp = 940` with total `5`, and the
rate is `5 / (1000 - 940)`. -/
theorem end_to_end_scenario :
    calculate_for_range chain3 2 60 2 =
      .ok (940, 1000, 5, FVal.fin ((5 : ℚ) / 60)) := by
  rfl

/-- Sum of the classifier counts over the `j+1` path blocks
`b, parent of b, …` (indices `0` through `j`). -/
def sumUserCounts (chain : ℕ → EncodedConfirmedBlock)
    (b : EncodedConfirmedBlock) : ℕ → ℕ
  | 0 => userCount b
  | j + 1 => userCount b + sumUserCounts chain (chain b.parent_slot) j

lemma blockAt_shift (chain : ℕ → EncodedConfirmedBlock)
    (b : EncodedConfirmedBlock) (i : ℕ) :
    blockAt chain (chain b.parent_slot) i = blockAt chain b (i + 1) := by
  induction i with
  | zero => rfl
  | succ i ih => rw [blockAt, ih]; rfl

lemma sumUserCounts_eq (chain : ℕ → EncodedConfirmedBlock)
    (b : EncodedConfirmedBlock) (j : ℕ) :
    sumUserCounts chain b j =
      ∑ i in Finset.range (j + 1), userCount (blockAt chain b i) := by
  induction j generalizing b with
  | zero => simp [sumUserCounts, blockAt]
  | succ j ih =>
    rw [sumUserCounts, ih, Finset.sum_range_succ' _ (j + 1)]
    simp [blockAt_shift, blockAt, Nat.add_comm]

lemma calcStep_eq (chain : ℕ → EncodedConfirmedBlock) (thr : ℤ)
    (current : EncodedConfirmedBlock) (total c : ℕ) (s t : ℤ)
    (hc : count_user_transactions current = .ok c)
    (hs : current.block_time = some s)
    (hcr : chronoMinTimestamp ≤ s ∧ s ≤ chronoMaxTimestamp)
    (hof : total + c ≤ u64Max)
    (ht : (chain current.parent_slot).block_time = some t) :
    calcStep chain thr current total =
      if t ≤ thr then .done (.ok (t, total + c))
      else
        match (chain current.parent_slot).block_height with
        | none => .done (.error .heightNone)
        | some ph =>
          if ph = 0 then .done (.ok (t, total + c))
          else .next (chain current.parent_slot) (total + c) := by
  simp only [calcStep, hc, hs, ht]
  rw [if_neg (by rintro (h | h) <;> omega), if_neg (by omega)]

lemma calcStep_break_thr (chain : ℕ → EncodedConfirmedBlock) (thr : ℤ)
    (current : EncodedConfirmedBlock) (total c : ℕ) (s t : ℤ)
    (hc : count_user_transactions current = .ok c)
    (hs : current.block_time = some s)
    (hcr : chronoMinTimestamp ≤ s ∧ s ≤ chronoMaxTimestamp)
    (hof : total + c ≤ u64Max)
    (ht : (chain current.parent_slot).block_time = some t)
    (hts : t ≤ thr) :
    calcStep chain thr current total = .done (.ok (t, total + c)) := by
  rw [calcStep_eq chain thr current total c s t hc hs hcr hof ht, if_pos hts]

lemma calcStep_break_genesis (chain : ℕ → EncodedConfirmedBlock) (thr : ℤ)
    (current : EncodedConfirmedBlock) (total c : ℕ) (s t : ℤ)
    (hc : count_user_transactions current = .ok c)
    (hs : current.block_time = some s)
    (hcr : chronoMinTimestamp ≤ s ∧ s ≤ chronoMaxTimestamp)
    (hof : total + c ≤ u64Max)
    (ht : (chain current.parent_slot).block_time = some t)
    (hh : (chain current.parent_slot).block_height = some 0) :
    calcStep chain thr current total = .done (.ok (t, total + c)) := by
  rw [calcStep_eq chain thr current total c s t hc hs hcr hof ht, hh]
  by_cases hts : t ≤ thr
  · rw [if_pos hts]
  · rw [if_neg hts]
    rfl

lemma calcStep_next (chain : ℕ → EncodedConfirmedBlock) (thr : ℤ)
    (current : EncodedConfirmedBlock) (total c : ℕ) (s t : ℤ) (ph : ℕ)
    (hc : count_user_transactions current = .ok c)
    (hs : current.block_time = some s)
    (hcr : chronoMinTimestamp ≤ s ∧ s ≤ chronoMaxTimestamp)
    (hof : total + c ≤ u64Max)
    (ht : (chain current.parent_slot).block_time = some t)
    (hts : ¬ t ≤ thr)
    (hh : (chain current.parent_slot).block_height = some ph)
    (hne : ph ≠ 0) :
    calcStep chain thr current total = .next (chain current.parent_slot) (total + c) := by
  rw [calcStep_eq chain thr current total c s t hc hs hcr hof ht, if_neg hts, hh]
  simp [hne]

lemma calcLoop_break (chain : ℕ → EncodedConfirmedBlock) (thr : ℤ) :
    ∀ (j fuel : ℕ) (b : EncodedConfirmedBlock) (acc : ℕ) (t : ℤ),
      j < fuel →
      (∀ i, i ≤ j → ∃ c, count_user_transactions (blockAt chain b i) = .ok c) →
      (∀ i, i ≤ j + 1 → ∃ s, (blockAt chain b i).block_time = some s) →
      (∀ i, i ≤ j → ∀ s, (blockAt chain b i).block_time = some s →
        chronoMinTimestamp ≤ s ∧ s ≤ chronoMaxTimestamp) →
      acc + sumUserCounts chain b j ≤ u64Max →
      (∀ i, i < j →
        (∀ s, (blockAt chain b (i + 1)).block_time = some s → thr < s) ∧
        ∃ hh, (blockAt chain b (i + 1)).block_height = some hh ∧ hh ≠ 0) →
      (blockAt chain b (j + 1)).block_time = some t →
      (t ≤ thr ∨ (blockAt chain b (j + 1)).block_height = some 0) →
      calcLoop chain thr fuel b acc = .ok (t, acc + sumUserCounts chain b j) := by
  intro j
  induction j with
  | zero =>
    intro fuel b acc t hfuel hok htime hchrono hacc hrec ht hstop
    obtain ⟨f, rfl⟩ : ∃ f, fuel = f + 1 := ⟨fuel - 1, by omega⟩
    obtain ⟨c, hc⟩ := hok 0 (le_refl 0)
    obtain ⟨s, hs⟩ := htime 0 (by omega)
    have hcr : chronoMinTimestamp ≤ s ∧ s ≤ chronoMaxTimestamp :=
      hchrono 0 (le_refl 0) s hs
    have hc' : count_user_transactions b = .ok c := hc
    have hs' : b.block_time = some s := hs
    have ht' : (chain b.parent_slot).block_time = some t := ht
    have hsum0 : sumUserCounts chain b 0 = c := by
      simp [sumUserCounts, userCount, hc', Except.toOption]
    have hof : acc + c ≤ u64Max := by
      rw [hsum0] at hacc
      exact hacc
    rw [hsum0]
    by_cases hts : t ≤ thr
    · rw [calcLoop,
        calcStep_break_thr chain thr b acc c s t hc' hs' hcr hof ht' hts]
    · rcases hstop with hts' | hh0
      · exact absurd hts' hts
      · have hh0' : (chain b.parent_slot).block_height = some 0 := hh0
        rw [calcLoop,
          calcStep_break_genesis chain thr b acc c s t hc' hs' hcr hof ht' hh0']
  | succ j ih =>
    intro fuel b acc t hfuel hok htime hchrono hacc hrec ht hstop
    obtain ⟨f, rfl⟩ : ∃ f, fuel = f + 1 := ⟨fuel - 1, by omega⟩
    obtain ⟨c, hc⟩ := hok 0 (by omega)
    obtain ⟨s, hs⟩ := htime 0 (by omega)
    have hc' : count_user_transactions b = .ok c := hc
    have hs' : b.block_time = some s := hs
    have huc : userCount b = c := by
      simp [userCount, hc', Except.toOption]
    have hsum : sumUserCounts chain b (j + 1)
        = c + sumUserCounts chain (chain b.parent_slot) j := by
      rw [sumUserCounts, huc]
    have hof : acc + c ≤ u64Max := by
      rw [hsum] at hacc
      omega
    obtain ⟨s1, hs1⟩ := htime 1 (by omega)
    have hcr : chronoMinTimestamp ≤ s ∧ s ≤ chronoMaxTimestamp :=
      hchrono 0 (by omega) s hs
    have hs1' : (chain b.parent_slot).block_time = some s1 := hs1
    obtain ⟨hlt0, hh, hhh, hhne⟩ := hrec 0 (by omega)
    have hthr : thr < s1 := hlt0 s1 hs1
    have hhh' : (chain b.parent_slot).block_height = some hh := hhh
    have hacc2 : acc + c + sumUserCounts chain (chain b.parent_slot) j ≤ u64Max := by
      rw [hsum] at hacc
      omega
    rw [calcLoop,
      calcStep_next chain thr b acc c s s1 hh hc' hs' hcr hof hs1'
        (not_le.mpr hthr) hhh' hhne, hsum, ← Nat.add_assoc]
    show calcLoop chain thr f (chain b.parent_slot) (acc + c)
        = Except.ok (t, acc + c + sumUserCounts chain (chain b.parent_slot) j)
    refine ih f (chain b.parent_slot) (acc + c) t (by omega)
      (fun i hi => by rw [blockAt_shift]; exact hok (i + 1) (by omega))
      (fun i hi => by rw [blockAt_shift]; exact htime (i + 1) (by omega))
      (fun i hi => by rw [blockAt_shift]; exact hchrono (i + 1) (by omega))
      hacc2
      (fun i hi => by rw [blockAt_shift]; exact hrec (i + 1) (by omega))
      (by rw [blockAt_shift]; exact ht)
      ?_
    rcases hstop with h | h
    · exact Or.inl h
    · refine Or.inr ?_
      rw [blockAt_shift]
      exact h

/-- C1: boundary exclusion of the traversal.  Walking backward from `b`,
each of the `j+1` loop iterations (indices `0..j`) classifies and
accumulates only its current block `blockAt chain b i`; at step `j` the
parent `blockAt chain b (j+1)` is the first parent whose timestamp `t`
satisfies `t ≤ timestamp_threshold` (earlier parents are strictly newer and
not genesis), the loop returns `t` as `oldest_timestamp`, and the total is
the sum of the user counts of blocks `0..j` only — the boundary block's own
transactions are excluded from `total_user_transactions`.  The side
conditions are the iterations' success conditions: classification succeeds,
timestamps are present, the counted blocks' timestamps lie within chrono's
representable range (`NaiveDateTime::from_timestamp` is applied to each
current block), and the total fits in a `u64`. -/
theorem boundary_exclusion (chain : ℕ → EncodedConfirmedBlock) (thr : ℤ)
    (j fuel : ℕ) (b : EncodedConfirmedBlock) (t : ℤ)
    (hfuel : j < fuel)
    (hok : ∀ i, i ≤ j → ∃ c, count_user_transactions (blockAt chain b i) = .ok c)
    (htime : ∀ i, i ≤ j + 1 → ∃ s, (blockAt chain b i).block_time = some s)
    (hchrono : ∀ i, i ≤ j → ∀ s, (blockAt chain b i).block_time = some s →
      chronoMinTimestamp ≤ s ∧ s ≤ chronoMaxTimestamp)
    (hacc : sumUserCounts chain b j ≤ u64Max)
    (hfirst : ∀ i, i < j →
      (∀ s, (blockAt chain b (i + 1)).block_time = some s → thr < s) ∧
      ∃ hh, (blockAt chain b (i + 1)).block_height = some hh ∧ hh ≠ 0)
    (ht : (blockAt chain b (j + 1)).block_time = some t)
    (hcross : t ≤ thr) :
    calcLoop chain thr fuel b 0 =
      .ok (t, ∑ i in Finset.range (j + 1), userCount (blockAt chain b i)) := by
  have h := calcLoop_break chain thr j fuel b 0 t hfuel hok htime hchrono
    (by omega) hfirst ht (Or.inl hcross)
  rw [h, Nat.zero_add, sumUserCounts_eq]

/-- C1 witness: one iteration on the scenario chain with threshold 940 —
block A's 5 transactions are counted, boundary block B is excluded, and B's
timestamp 940 is returned. -/
theorem boundary_exclusion_witness :
    calcLoop chain3 940 1 blockA3 0 =
      .ok (940, ∑ i in Finset.range 1, userCount (blockAt chain3 blockA3 i)) := by
  refine boundary_exclusion chain3 940 0 1 blockA3 940 (by omega)
    (fun i hi => ?_) (fun i hi => ?_) (fun i hi s hs => ?_) ?_
    (fun i hi => absurd hi (by omega)) ?_ (by omega)
  · interval_cases i
    · exact ⟨5, rfl⟩
  · interval_cases i
    · exact ⟨1000, rfl⟩
    · exact ⟨940, rfl⟩
  · interval_cases i
    · have h1000 : (blockAt chain3 blockA3 0).block_time = some 1000 := rfl
      rw [h1000] at hs
      have hseq := Option.some.inj hs
      subst hseq
      constructor <;> norm_num [chronoMinTimestamp, chronoMaxTimestamp]
  · have h5 : sumUserCounts chain3 blockA3 0 = 5 := rfl
    rw [h5]
    norm_num [u64Max]
  · rfl

/-- C6: genesis termination.  If at step `j` the walk reaches a parent of
height `0` whose timestamp is still strictly newer than the threshold
(and every earlier parent was neither at nor below the threshold nor
genesis), the loop terminates without error using that genesis block's
timestamp as `oldest_timestamp`, and — by the boundary-exclusion rule — the
genesis block's own transactions are excluded from the total.  The side
conditions are the iterations' success conditions: classification succeeds,
timestamps are present, the counted blocks' timestamps lie within chrono's
representable range (`NaiveDateTime::from_timestamp` is applied to each
current block), and the total fits in a `u64`. -/
theorem genesis_termination (chain : ℕ → EncodedConfirmedBlock) (thr : ℤ)
    (j fuel : ℕ) (b : EncodedConfirmedBlock) (t : ℤ)
    (hfuel : j < fuel)
    (hok : ∀ i, i ≤ j → ∃ c, count_user_transactions (blockAt chain b i) = .ok c)
    (htime : ∀ i, i ≤ j + 1 → ∃ s, (blockAt chain b i).block_time = some s)
    (hchrono : ∀ i, i ≤ j → ∀ s, (blockAt chain b i).block_time = some s →
      chronoMinTimestamp ≤ s ∧ s ≤ chronoMaxTimestamp)
    (hacc : sumUserCounts chain b j ≤ u64Max)
    (hfirst : ∀ i, i < j →
      (∀ s, (blockAt chain b (i + 1)).block_time = some s → thr < s) ∧
      ∃ hh, (blockAt chain b (i + 1)).block_height = some hh ∧ hh ≠ 0)
    (ht : (blockAt chain b (j + 1)).block_time = some t)
    (hafter : thr < t)
    (hgen : (blockAt chain b (j + 1)).block_height = some 0) :
    calcLoop chain thr fuel b 0 =
      .ok (t, ∑ i in Finset.range (j + 1), userCount (blockAt chain b i)) := by
  have h := calcLoop_break chain thr j fuel b 0 t hfuel hok htime hchrono
    (by omega) hfirst ht (Or.inr hgen)
  rw [h, Nat.zero_add, sumUserCounts_eq]

/-- C6 witness: with threshold 800 the scenario chain walks A then B, finds
genesis C (height 0, timestamp 880 > 800), stops with oldest 880, counting
only A's and B's transactions (5 + 3). -/
theorem genesis_termination_witness :
    calcLoop chain3 800 2 blockA3 0 =
      .ok (880, ∑ i in Finset.range 2, userCount (blockAt chain3 blockA3 i)) := by
  refine genesis_termination chain3 800 1 2 blockA3 880 (by omega)
    (fun i hi => ?_) (fun i hi => ?_) (fun i hi s hs => ?_) ?_
    (fun i hi => ?_) ?_ (by omega) ?_
  · interval_cases i
    · exact ⟨5, rfl⟩
    · exact ⟨3, rfl⟩
  · interval_cases i
    · exact ⟨1000, rfl⟩
    · exact ⟨940, rfl⟩
    · exact ⟨880, rfl⟩
  · interval_cases i
    · have h1000 : (blockAt chain3 blockA3 0).block_time = some 1000 := rfl
      rw [h1000] at hs
      have hseq := Option.some.inj hs
      subst hseq
      constructor <;> norm_num [chronoMinTimestamp, chronoMaxTimestamp]
    · have h940 : (blockAt chain3 blockA3 1).block_time = some 940 := rfl
      rw [h940] at hs
      have hseq := Option.some.inj hs
      subst hseq
      constructor <;> norm_num [chronoMinTimestamp, chronoMaxTimestamp]
  · have h8 : sumUserCounts chain3 blockA3 1 = 8 := rfl
    rw [h8]
    norm_num [u64Max]
  · interval_cases i
    · constructor
      · intro s hsome
        have : (940 : ℤ) = s := by
          have h940 : (blockAt chain3 blockA3 1).block_time = some 940 := rfl
          rw [h940] at hsome
          exact Option.some.inj hsome
        omega
      · exact ⟨1, rfl, by omega⟩
  · rfl
  · rfl

lemma count_user_transactions_error_kind (b : EncodedConfirmedBlock)
    (e : PanicKind) (h : count_user_transactions b = .error e) :
    e = PanicKind.decodeFail ∨ e = PanicKind.indexOOB ∨
      e = PanicKind.subUnderflow := by
  cases haux : countUserAux b.transactions 0 with
  | error e2 =>
    have hcu : count_user_transactions b = .error e2 := by
      unfold count_user_transactions
      rw [haux]
    rw [hcu] at h
    have he := Except.error.inj h
    rcases countUserAux_error_kind _ _ _ haux with hk | hk
    · exact Or.inl (by rw [← he, hk])
    · exact Or.inr (Or.inl (by rw [← he, hk]))
  | ok u =>
    have hu := (countUserAux_ok_iff _ _ _).mp haux
    have hle : u ≤ b.transactions.length := by
      rw [hu.2, Nat.zero_add]
      exact List.countP_le_length _
    have hcu : count_user_transactions b = .ok u := by
      unfold count_user_transactions
      rw [haux]
      exact if_neg (by omega)
    rw [hcu] at h
    exact absurd h (by simp)

lemma calcStep_ok_bound (chain : ℕ → EncodedConfirmedBlock) (thr : ℤ)
    (b : EncodedConfirmedBlock) (total : ℕ) :
    (∀ t n, calcStep chain thr b total = .done (.ok (t, n)) → n ≤ u64Max) ∧
    (∀ b' n, calcStep chain thr b total = .next b' n → n ≤ u64Max) := by
  cases hcu : count_user_transactions b with
  | error e =>
    constructor <;> intro x n h <;>
      · simp only [calcStep, hcu] at h
        exact absurd h (by simp)
  | ok c =>
    cases hbt : b.block_time with
    | none =>
      constructor <;> intro x n h <;>
        · simp only [calcStep, hcu, hbt] at h
          exact absurd h (by simp)
    | some s =>
      by_cases hcr : s < chronoMinTimestamp ∨ chronoMaxTimestamp < s
      · constructor <;> intro x n h <;>
          · simp only [calcStep, hcu, hbt, if_pos hcr] at h
            exact absurd h (by simp)
      · by_cases hov : u64Max < total + c
        · constructor <;> intro x n h <;>
            · simp only [calcStep, hcu, hbt, if_neg hcr, if_pos hov] at h
              exact absurd h (by simp)
        · cases hpt : (chain b.parent_slot).block_time with
          | none =>
            constructor <;> intro x n h <;>
              · simp only [calcStep, hcu, hbt, if_neg hcr, if_neg hov, hpt] at h
                exact absurd h (by simp)
          | some pt =>
            by_cases hts : pt ≤ thr
            · constructor <;> intro x n h <;>
                · simp only [calcStep, hcu, hbt, if_neg hcr, if_neg hov, hpt,
                    if_pos hts] at h
                  first
                  | (simp only [StepOut.done.injEq, Except.ok.injEq, Prod.mk.injEq] at h
                     omega)
                  | exact absurd h (by simp)
            · cases hph : (chain b.parent_slot).block_height with
              | none =>
                constructor <;> intro x n h <;>
                  · simp only [calcStep, hcu, hbt, if_neg hcr, if_neg hov, hpt,
                      if_neg hts, hph] at h
                    exact absurd h (by simp)
              | some ph =>
                by_cases hz : ph = 0
                · constructor <;> intro x n h <;>
                    · simp only [calcStep, hcu, hbt, if_neg hcr, if_neg hov, hpt,
                        if_neg hts, hph, if_pos hz] at h
                      first
                      | (simp only [StepOut.done.injEq, Except.ok.injEq, Prod.mk.injEq] at h
                         omega)
                      | exact absurd h (by simp)
                · constructor <;> intro x n h <;>
                    · simp only [calcStep, hcu, hbt, if_neg hcr, if_neg hov, hpt,
                        if_neg hts, hph, if_neg hz] at h
                      first
                      | (simp only [StepOut.next.injEq] at h
                         omega)
                      | exact absurd h (by simp)

/-- C7: arithmetic failures are fatal, never silent wraparound.
First: if `newest_timestamp.checked_sub(threshold_seconds)` leaves the `i64`
range, the whole computation fails with `thresholdUnderflow`.
Second: if adding a block's user-transaction count to the running total
would exceed `u64::MAX`, the loop fails immediately with `addOverflow` (for
a block whose timestamp the preceding `NaiveDateTime::from_timestamp` call
accepts — in source order that panic fires before the `checked_add`).
Third: any total the loop actually returns is at most `u64::MAX` — no
wrapped-around value is ever produced or used. -/
theorem arithmetic_failures_fatal :
    (∀ (chain : ℕ → EncodedConfirmedBlock) (tip : ℕ) (thrS : ℤ) (fuel : ℕ)
        (newest : ℤ),
      (chain tip).block_time = some newest →
      (newest - thrS < i64Min ∨ i64Max < newest - thrS) →
      calculate_for_range chain tip thrS fuel
        = .error PanicKind.thresholdUnderflow) ∧
    (∀ (chain : ℕ → EncodedConfirmedBlock) (thr : ℤ) (fuel : ℕ)
        (b : EncodedConfirmedBlock) (total c : ℕ) (s : ℤ),
      count_user_transactions b = .ok c →
      b.block_time = some s →
      chronoMinTimestamp ≤ s → s ≤ chronoMaxTimestamp →
      u64Max < total + c →
      calcLoop chain thr (fuel + 1) b total = .error PanicKind.addOverflow) ∧
    (∀ (chain : ℕ → EncodedConfirmedBlock) (thr : ℤ) (fuel : ℕ)
        (b : EncodedConfirmedBlock) (total : ℕ) (t : ℤ) (n : ℕ),
      calcLoop chain thr fuel b total = .ok (t, n) → n ≤ u64Max) := by
  refine ⟨?_, ?_, ?_⟩
  · intro chain tip thrS fuel newest hnt hrange
    have hsub : i64CheckedSub newest thrS = none := by
      unfold i64CheckedSub
      rw [if_neg]
      rintro ⟨h1, h2⟩
      rcases hrange with h | h <;> omega
    unfold calculate_for_range
    simp only [hnt, hsub]
  · intro chain thr fuel b total c s hc hs hcr1 hcr2 hov
    have hstep : calcStep chain thr b total = .done (.error .addOverflow) := by
      simp only [calcStep, hc, hs]
      rw [if_neg (by rintro (h | h) <;> omega), if_pos hov]
    rw [calcLoop, hstep]
  · intro chain thr fuel
    induction fuel with
    | zero =>
      intro b total t n h
      exact absurd h (by simp [calcLoop])
    | succ f ih =>
      intro b total t n h
      rw [calcLoop] at h
      cases hcs : calcStep chain thr b total with
      | done r =>
        rw [hcs] at h
        have hr : r = .ok (t, n) := h
        exact (calcStep_ok_bound chain thr b total).1 t n (by rw [hcs, hr])
      | next b' tot' =>
        rw [hcs] at h
        exact ih b' tot' t n h

/-- A block pinned at the smallest representable timestamp, so that
computing the threshold underflows `i64`. -/
def belowMinBlock : EncodedConfirmedBlock := ⟨0, some i64Min, some 0, []⟩

/-- C7 witness: concrete instances of the three conjuncts. -/
theorem arithmetic_failures_fatal_witness :
    calculate_for_range (fun _ => belowMinBlock) 0 1 3
      = .error PanicKind.thresholdUnderflow ∧
    calcLoop chain3 940 1 blockA3 u64Max = .error PanicKind.addOverflow ∧
    (5 : ℕ) ≤ u64Max :=
  ⟨arithmetic_failures_fatal.1 (fun _ => belowMinBlock) 0 1 3 i64Min rfl
      (Or.inl (by norm_num [i64Min])),
   arithmetic_failures_fatal.2.1 chain3 940 0 blockA3 u64Max 5 1000 rfl rfl
      (by norm_num [chronoMinTimestamp]) (by norm_num [chronoMaxTimestamp])
      (by norm_num [u64Max]),
   arithmetic_failures_fatal.2.2 chain3 940 1 blockA3 0 940 5 (by rfl)⟩

lemma calcStep_not_fuel (chain : ℕ → EncodedConfirmedBlock) (thr : ℤ)
    (b : EncodedConfirmedBlock) (total : ℕ) :
    calcStep chain thr b total ≠ .done (.error PanicKind.outOfFuel) := by
  intro h
  cases hcu : count_user_transactions b with
  | error e =>
    simp only [calcStep, hcu, StepOut.done.injEq, Except.error.injEq] at h
    rcases count_user_transactions_error_kind b e hcu with hk | hk | hk <;>
      (rw [h] at hk; exact PanicKind.noConfusion hk)
  | ok c =>
    cases hbt : b.block_time with
    | none => simp only [calcStep, hcu, hbt] at h; simp at h
    | some s =>
      by_cases hcr : s < chronoMinTimestamp ∨ chronoMaxTimestamp < s
      · simp only [calcStep, hcu, hbt, if_pos hcr] at h
        simp at h
      · by_cases hov : u64Max < total + c
        · simp only [calcStep, hcu, hbt, if_neg hcr, if_pos hov] at h
          simp at h
        · cases hpt : (chain b.parent_slot).block_time with
          | none =>
            simp only [calcStep, hcu, hbt, if_neg hcr, if_neg hov, hpt] at h
            simp at h
          | some pt =>
            by_cases hts : pt ≤ thr
            · simp only [calcStep, hcu, hbt, if_neg hcr, if_neg hov, hpt, if_pos hts] at h
              simp at h
            · cases hph : (chain b.parent_slot).block_height with
              | none =>
                simp only [calcStep, hcu, hbt, if_neg hcr, if_neg hov, hpt, if_neg hts,
                  hph] at h
                simp at h
              | some ph =>
                by_cases hz : ph = 0
                · simp only [calcStep, hcu, hbt, if_neg hcr, if_neg hov, hpt, if_neg hts,
                    hph, if_pos hz] at h
                  simp at h
                · simp only [calcStep, hcu, hbt, if_neg hcr, if_neg hov, hpt, if_neg hts,
                    hph, if_neg hz] at h
                  simp at h

lemma calcStep_next_inv (chain : ℕ → EncodedConfirmedBlock) (thr : ℤ)
    (b b' : EncodedConfirmedBlock) (total tot' : ℕ)
    (h : calcStep chain thr b total = .next b' tot') :
    b' = chain b.parent_slot ∧
    ∃ ph, (chain b.parent_slot).block_height = some ph ∧ ph ≠ 0 := by
  cases hcu : count_user_transactions b with
  | error e => simp only [calcStep, hcu] at h; simp at h
  | ok c =>
    cases hbt : b.block_time with
    | none => simp only [calcStep, hcu, hbt] at h; simp at h
    | some s =>
      by_cases hcr : s < chronoMinTimestamp ∨ chronoMaxTimestamp < s
      · simp only [calcStep, hcu, hbt, if_pos hcr] at h
        simp at h
      · by_cases hov : u64Max < total + c
        · simp only [calcStep, hcu, hbt, if_neg hcr, if_pos hov] at h
          simp at h
        · cases hpt : (chain b.parent_slot).block_time with
          | none =>
            simp only [calcStep, hcu, hbt, if_neg hcr, if_neg hov, hpt] at h
            simp at h
          | some pt =>
            by_cases hts : pt ≤ thr
            · simp only [calcStep, hcu, hbt, if_neg hcr, if_neg hov, hpt, if_pos hts] at h
              simp at h
            · cases hph : (chain b.parent_slot).block_height with
              | none =>
                simp only [calcStep, hcu, hbt, if_neg hcr, if_neg hov, hpt, if_neg hts,
                  hph] at h
                simp at h
              | some ph =>
                by_cases hz : ph = 0
                · simp only [calcStep, hcu, hbt, if_neg hcr, if_neg hov, hpt, if_neg hts,
                    hph, if_pos hz] at h
                  simp at h
                · simp only [calcStep, hcu, hbt, if_neg hcr, if_neg hov, hpt, if_neg hts,
                    hph, if_neg hz, StepOut.next.injEq] at h
                  exact ⟨h.1.symm, ph, rfl, hz⟩

lemma calcLoop_fuel_mono (chain : ℕ → EncodedConfirmedBlock) (thr : ℤ) :
    ∀ (f : ℕ) (b : EncodedConfirmedBlock) (total : ℕ),
      calcLoop chain thr f b total ≠ .error PanicKind.outOfFuel →
      ∀ f', f ≤ f' →
        calcLoop chain thr f' b total = calcLoop chain thr f b total := by
  intro f
  induction f with
  | zero =>
    intro b total h
    exact absurd rfl h
  | succ f ih =>
    intro b total h f' hf'
    obtain ⟨g, rfl⟩ : ∃ g, f' = g + 1 := ⟨f' - 1, by omega⟩
    rw [calcLoop, calcLoop]
    cases hcs : calcStep chain thr b total with
    | done r => rfl
    | next b' tot' =>
      show calcLoop chain thr g b' tot' = calcLoop chain thr f b' tot'
      rw [calcLoop, hcs] at h
      exact ih b' tot' h g (by omega)

/-- The height invariant of the spec: every block's parent has a strictly
smaller height, with genesis at height `0` being its own parent-height
fixed point (heights are present on every block). -/
def ChainHeightOk (chain : ℕ → EncodedConfirmedBlock) : Prop :=
  ∀ slot : ℕ, ∃ hb hp : ℕ,
    (chain slot).block_height = some hb ∧
    (chain ((chain slot).parent_slot)).block_height = some hp ∧
    (hp < hb ∨ (hb = 0 ∧ hp = 0))

/-- C8: termination of the backward walk.  Under the precondition that
heights strictly decrease from a block to its parent (genesis at height 0),
the loop started at a block of height `H` finishes within `H + 1`
iterations: it never exhausts its fuel, because each recursive step moves to
a parent of strictly smaller nonzero-checked height until a stop condition
(threshold crossed or genesis parent) or a fatal error ends it. -/
theorem traversal_terminates :
    ∀ (chain : ℕ → EncodedConfirmedBlock), ChainHeightOk chain →
    ∀ (H slot : ℕ) (thr : ℤ) (acc : ℕ),
      (chain slot).block_height = some H →
      calcLoop chain thr (H + 1) (chain slot) acc
        ≠ .error PanicKind.outOfFuel := by
  intro chain hchain H
  induction H using Nat.strong_induction_on with
  | _ H ih =>
    intro slot thr acc hH h
    rw [calcLoop] at h
    cases hcs : calcStep chain thr (chain slot) acc with
    | done r =>
      rw [hcs] at h
      have hr : r = .error PanicKind.outOfFuel := h
      exact calcStep_not_fuel chain thr (chain slot) acc (by rw [hcs, hr])
    | next b' tot' =>
      rw [hcs] at h
      have h' : calcLoop chain thr H b' tot' = .error PanicKind.outOfFuel := h
      obtain ⟨hb', ph, hph, hphne⟩ := calcStep_next_inv chain thr _ _ _ _ hcs
      obtain ⟨hb, hp, hhb, hhp, hdisj⟩ := hchain slot
      have hbH : hb = H := by
        rw [hH] at hhb
        exact (Option.some.inj hhb).symm
      have hphp : ph = hp := by
        rw [hph] at hhp
        exact Option.some.inj hhp
      have hlt : hp < H := by
        rcases hdisj with h1 | ⟨h1, h2⟩ <;> omega
      have hne := ih hp hlt ((chain slot).parent_slot) thr tot' hhp
      have hmono := calcLoop_fuel_mono chain thr (hp + 1)
        (chain ((chain slot).parent_slot)) tot' hne H (by omega)
      rw [hb'] at h'
      rw [hmono] at h'
      exact hne h'

/-- C8 witness: the scenario chain satisfies the height invariant, and the
walk from block A (height 2) terminates within 3 iterations. -/
theorem traversal_terminates_witness :
    calcLoop chain3 940 3 (chain3 2) 0 ≠ .error PanicKind.outOfFuel := by
  have hok : ChainHeightOk chain3 := by
    intro slot
    by_cases h2 : slot = 2
    · subst h2
      exact ⟨2, 1, rfl, rfl, Or.inl (by omega)⟩
    · by_cases h1 : slot = 1
      · subst h1
        exact ⟨1, 0, rfl, rfl, Or.inl (by omega)⟩
      · refine ⟨0, 0, ?_, ?_, Or.inr ⟨rfl, rfl⟩⟩
        · simp [chain3, h2, h1, blockC3]
        · simp [chain3, h2, h1, blockC3]
  exact traversal_terminates chain3 hok 2 2 940 0 rfl
